import Mathlib

/-!
Verification of the project-memory core: the vector codec, cosine
similarity, the scan-based search of the SQLite context store, the basic
summarizer, id derivation, and the tool-dispatch handlers.

Modelling conventions.
* Go strings and byte slices are lists of byte values (`GoStr := List Nat`,
  each value < 256); Go indexes strings by bytes, so does the model.
* A `float32` appearing only as data (the codec) is modelled by its 32-bit
  pattern, a `Nat` below `2 ^ 32`; a `float32` appearing arithmetically
  (cosine similarity, search scores) is modelled by an exact real number.
* Machine integers are `Int` / `Nat` with explicit reduction modulo `2 ^ w`
  where Go overflow semantics matter.
* Fallible Go functions return `Except`; a Go runtime panic that escapes the
  error-return path is a distinguished `crash` outcome.
-/

namespace ProjectMemory

/-- Go strings and `[]byte` values, modelled as lists of byte values. -/
abbrev GoStr := List Nat

/-- Byte values of an ASCII string literal (all literals the handlers use are
ASCII, where this agrees with Go's UTF-8 bytes). -/
def strBytes (s : String) : GoStr := s.data.map Char.toNat

namespace Vector

/-- The four little-endian bytes of a 32-bit word, as written by
`encoding/binary.Write` with `binary.LittleEndian`. -/
def u32ToLEBytes (x : Nat) : List Nat :=
  [x % 256, x / 256 % 256, x / 256 / 256 % 256, x / 256 / 256 / 256 % 256]

/-- Read a 32-bit word from four little-endian bytes, as read by
`encoding/binary.Read` with `binary.LittleEndian`. -/
def u32FromLEBytes (b : List Nat) : Nat :=
  b.getD 0 0 + 256 * (b.getD 1 0 + 256 * (b.getD 2 0 + 256 * b.getD 3 0))

/-- Reinterpret a 32-bit pattern as a signed `int32` (two's complement). -/
def toInt32 (x : Nat) : Int :=
  if x % 2 ^ 32 < 2 ^ 31 then (x % 2 ^ 32 : Int) else (x % 2 ^ 32 : Int) - 2 ^ 32

/-- The little-endian bytes of a list of 32-bit words, written one after the
other (the semantics of `binary.Write` applied to a `[]float32`). -/
def bytesOfWords : List Nat → List Nat
  | [] => []
  | f :: rest => u32ToLEBytes f ++ bytesOfWords rest

/-- `Float32SliceToBytes` (src/internal/vector/mock_embedder.go): a 4-byte
little-endian `int32` length followed by each `float32`'s 4 little-endian
bytes.  `binary.Write` to a `bytes.Buffer` cannot fail, so the Go error
return is always `nil` and the encoder is modelled as a total function.
Float32 values are modelled by their 32-bit patterns. -/
def float32SliceToBytes (floats : List Nat) : List Nat :=
  u32ToLEBytes (floats.length % 2 ^ 32) ++ bytesOfWords floats

/-- Outcome of `BytesToFloat32Slice`: a value, a Go error return, or a
runtime panic (`crash`). -/
inductive DecodeResult where
  | ok (v : List Nat)
  | err
  | crash
deriving DecidableEq, Repr

/-- Read `n` consecutive little-endian 32-bit words from a byte list
(the semantics of `binary.Read` into a `[]float32` of length `n`). -/
def bytesToWordsLE : Nat → List Nat → List Nat
  | 0, _ => []
  | n + 1, bs => u32FromLEBytes (bs.take 4) :: bytesToWordsLE n (bs.drop 4)

/-- The `int32` length declared by a blob's first four bytes. -/
def headerLen (data : List Nat) : Int := toInt32 (u32FromLEBytes (data.take 4))

/-- `BytesToFloat32Slice` (src/internal/vector/mock_embedder.go).
`binary.Read` of the `int32` length errs when fewer than 4 bytes remain;
`make([]float32, length)` with a negative `length` is a runtime panic
(`crash`); `binary.Read` into the slice errs when fewer than `4 * length`
payload bytes remain, and otherwise reads exactly `4 * length` bytes,
ignoring any trailing bytes. -/
def bytesToFloat32Slice (data : List Nat) : DecodeResult :=
  if data.length < 4 then .err
  else
    let len := headerLen data
    if len < 0 then .crash
    else if data.length - 4 < 4 * len.toNat then .err
    else .ok (bytesToWordsLE len.toNat (data.drop 4))

end Vector

namespace Sha256

/-- Addition modulo `2 ^ 32`. -/
def add32 (a b : Nat) : Nat := (a + b) % 2 ^ 32

/-- Right rotation of a 32-bit word. -/
def rotr32 (n x : Nat) : Nat := ((x >>> n) ||| (x <<< (32 - n))) % 2 ^ 32

/-- Right shift of a 32-bit word. -/
def shr32 (n x : Nat) : Nat := x >>> n

/-- Bitwise complement of a 32-bit word. -/
def not32 (x : Nat) : Nat := Nat.xor x (2 ^ 32 - 1)

/-- FIPS 180-4 `Σ₀`. -/
def bigSigma0 (x : Nat) : Nat := Nat.xor (rotr32 2 x) (Nat.xor (rotr32 13 x) (rotr32 22 x))

/-- FIPS 180-4 `Σ₁`. -/
def bigSigma1 (x : Nat) : Nat := Nat.xor (rotr32 6 x) (Nat.xor (rotr32 11 x) (rotr32 25 x))

/-- FIPS 180-4 `σ₀`. -/
def smallSigma0 (x : Nat) : Nat := Nat.xor (rotr32 7 x) (Nat.xor (rotr32 18 x) (shr32 3 x))

/-- FIPS 180-4 `σ₁`. -/
def smallSigma1 (x : Nat) : Nat := Nat.xor (rotr32 17 x) (Nat.xor (rotr32 19 x) (shr32 10 x))

/-- FIPS 180-4 `Ch`. -/
def ch (x y z : Nat) : Nat := Nat.xor (Nat.land x y) (Nat.land (not32 x) z)

/-- FIPS 180-4 `Maj`. -/
def maj (x y z : Nat) : Nat :=
  Nat.xor (Nat.land x y) (Nat.xor (Nat.land x z) (Nat.land y z))

/-- The 64 SHA-256 round constants (FIPS 180-4, written in decimal). -/
def K : List Nat :=
  [1116352408, 1899447441, 3049323471, 3921009573, 961987163,
   1508970993, 2453635748, 2870763221, 3624381080, 310598401,
   607225278, 1426881987, 1925078388, 2162078206, 2614888103,
   3248222580, 3835390401, 4022224774, 264347078, 604807628,
   770255983, 1249150122, 1555081692, 1996064986, 2554220882,
   2821834349, 2952996808, 3210313671, 3336571891, 3584528711,
   113926993, 338241895, 666307205, 773529912, 1294757372,
   1396182291, 1695183700, 1986661051, 2177026350, 2456956037,
   2730485921, 2820302411, 3259730800, 3345764771, 3516065817,
   3600352804, 4094571909, 275423344, 430227734, 506948616,
   659060556, 883997877, 958139571, 1322822218, 1537002063,
   1747873779, 1955562222, 2024104815, 2227730452, 2361852424,
   2428436474, 2756734187, 3204031479, 3329325298]

/-- The eight 32-bit working variables of the compression function. -/
structure Hash8 where
  a : Nat
  b : Nat
  c : Nat
  d : Nat
  e : Nat
  f : Nat
  g : Nat
  h : Nat

/-- The SHA-256 initial hash value (FIPS 180-4, written in decimal). -/
def H0 : Hash8 :=
  ⟨1779033703, 3144134277, 1013904242, 2773480762,
   1359893119, 2600822924, 528734635, 1541459225⟩

/-- Big-endian bytes of a 32-bit word. -/
def u32ToBEBytes (x : Nat) : List Nat :=
  [x / 2 ^ 24 % 256, x / 2 ^ 16 % 256, x / 2 ^ 8 % 256, x % 256]

/-- Big-endian bytes of a 64-bit word. -/
def u64ToBEBytes (x : Nat) : List Nat :=
  [x / 2 ^ 56 % 256, x / 2 ^ 48 % 256, x / 2 ^ 40 % 256, x / 2 ^ 32 % 256,
   x / 2 ^ 24 % 256, x / 2 ^ 16 % 256, x / 2 ^ 8 % 256, x % 256]

/-- Read a 32-bit word from four big-endian bytes. -/
def u32FromBEBytes (b : List Nat) : Nat :=
  2 ^ 24 * b.getD 0 0 + 2 ^ 16 * b.getD 1 0 + 2 ^ 8 * b.getD 2 0 + b.getD 3 0

/-- SHA-256 padding: a `0x80` byte, zeros to 56 mod 64, then the bit length
as a 64-bit big-endian integer. -/
def pad (msg : List Nat) : List Nat :=
  let L := msg.length
  let k := (64 - (L + 9) % 64) % 64
  msg ++ [0x80] ++ List.replicate k 0 ++ u64ToBEBytes (8 * L % 2 ^ 64)

/-- Split a byte list into 64-byte blocks; the fuel (initially the length)
bounds the recursion. -/
def blocksAux : Nat → List Nat → List (List Nat)
  | 0, _ => []
  | _ + 1, [] => []
  | fuel + 1, l => l.take 64 :: blocksAux fuel (l.drop 64)

/-- The 64-byte blocks of a byte list. -/
def blocks (l : List Nat) : List (List Nat) := blocksAux l.length l

/-- The first 16 words of the message schedule, big-endian from the block. -/
def blockWords : Nat → List Nat → List Nat
  | 0, _ => []
  | n + 1, bs => u32FromBEBytes (bs.take 4) :: blockWords n (bs.drop 4)

/-- Extend the 16 block words to the 64-word message schedule. -/
def extendWords (ws : List Nat) : List Nat :=
  (List.range 48).foldl
    (fun ws _ =>
      let n := ws.length
      ws ++ [add32 (add32 (smallSigma1 (ws.getD (n - 2) 0)) (ws.getD (n - 7) 0))
               (add32 (smallSigma0 (ws.getD (n - 15) 0)) (ws.getD (n - 16) 0))])
    ws

/-- The 64-word message schedule of one block. -/
def schedule (block : List Nat) : List Nat := extendWords (blockWords 16 block)

/-- One compression round; the pair carries the round constant and the
schedule word. -/
def round (st : Hash8) (kw : Nat × Nat) : Hash8 :=
  let t1 := add32 st.h (add32 (bigSigma1 st.e) (add32 (ch st.e st.f st.g) (add32 kw.1 kw.2)))
  let t2 := add32 (bigSigma0 st.a) (maj st.a st.b st.c)
  ⟨add32 t1 t2, st.a, st.b, st.c, add32 st.d t1, st.e, st.f, st.g⟩

/-- Compress one 64-byte block into the running hash. -/
def compress (st : Hash8) (block : List Nat) : Hash8 :=
  let fin := (K.zip (schedule block)).foldl round st
  ⟨add32 st.a fin.a, add32 st.b fin.b, add32 st.c fin.c, add32 st.d fin.d,
   add32 st.e fin.e, add32 st.f fin.f, add32 st.g fin.g, add32 st.h fin.h⟩

/-- The SHA-256 digest (32 bytes) of a byte string (FIPS 180-4, as computed
by `crypto/sha256`). -/
def sha256 (msg : List Nat) : List Nat :=
  let fin := (blocks (pad msg)).foldl compress H0
  u32ToBEBytes fin.a ++ u32ToBEBytes fin.b ++ u32ToBEBytes fin.c ++ u32ToBEBytes fin.d ++
    u32ToBEBytes fin.e ++ u32ToBEBytes fin.f ++ u32ToBEBytes fin.g ++ u32ToBEBytes fin.h

/-- The lowercase hex digit byte of a value below 16 (`encoding/hex` emits
lowercase digits). -/
def hexDigit (n : Nat) : Nat := if n < 10 then 48 + n else 87 + n

/-- `hex.EncodeToString`: two lowercase hex digit bytes per input byte. -/
def hexEncode : List Nat → List Nat
  | [] => []
  | b :: rest => hexDigit (b / 16) :: hexDigit (b % 16) :: hexEncode rest

end Sha256

namespace Summarizer

/-- `strings.LastIndex` restricted to a one-byte needle: the byte index of
the last occurrence of `c`, or `-1` when absent. -/
def lastIndex (c : Nat) : List Nat → Int
  | [] => -1
  | b :: rest =>
      let r := lastIndex c rest
      if 0 ≤ r then r + 1 else if b = c then 0 else -1

/-- `BasicSummarizer.Summarize` (src/internal/summarizer/basic_summarizer.go)
over byte strings (Go slices strings by bytes).  `maxLen` is the configured
`maxSummaryLen`; the constructor forces it positive, so it is taken as a
`Nat`, and the truncated subtraction `maxLen - 3` coincides with the
source's clamp of `maxSummaryLen - len(ellipsis)` to zero.  Byte 46 is `.`,
63 is `?`, 33 is `!`, 32 is the space. -/
def summarize (maxLen : Nat) (text : GoStr) : GoStr :=
  if text.length ≤ maxLen then text
  else
    let ellipsis := strBytes ("...")
    let truncated := text.take maxLen
    let lastPeriod := lastIndex 46 truncated
    let lastQuestion := lastIndex 63 truncated
    let lastExclamation := lastIndex 33 truncated
    let lastSentenceBoundary := max lastPeriod (max lastQuestion lastExclamation)
    if 0 < lastSentenceBoundary then text.take (lastSentenceBoundary.toNat + 1)
    else
      let truncateLen := maxLen - 3
      let truncated2 := if truncateLen < text.length then text.take truncateLen else truncated
      let lastSpace := lastIndex 32 truncated2
      if 0 < lastSpace then text.take lastSpace.toNat ++ ellipsis
      else truncated2 ++ ellipsis

end Summarizer

namespace Vector

/-- Errors of `CosineSimilarity`: `vectors must have the same dimension`
and `one or both vectors have zero magnitude`. -/
inductive VectorError where
  | dimensionMismatch
  | zeroVector
deriving DecidableEq, Repr

/-- `CosineSimilarity` (src/internal/vector/mock_embedder.go).  Float32
arithmetic is idealized as exact rational arithmetic; the library square
root (`math.Sqrt` with its float conversions) is an uninterpreted oracle
`sqrtF`.  The single loop accumulates the dot product and both squared
norms, then the zero-magnitude check and the final quotient follow the
source line by line. -/
def cosineSimilarity (sqrtF : ℚ → ℚ) (a b : List ℚ) : Except VectorError ℚ :=
  if a.length ≠ b.length then .error .dimensionMismatch
  else
    let acc := (a.zip b).foldl
      (fun (s : ℚ × ℚ × ℚ) p => (s.1 + p.1 * p.2, s.2.1 + p.1 * p.1, s.2.2 + p.2 * p.2))
      (0, 0, 0)
    if acc.2.1 = 0 ∨ acc.2.2 = 0 then .error .zeroVector
    else .ok (acc.1 / (sqrtF acc.2.1 * sqrtF acc.2.2))

/-- The dot product of two equally long vectors (specification side). -/
def dotProd (a b : List ℚ) : ℚ := (List.zipWith (· * ·) a b).sum

/-- The sum of squares of a vector (specification side); its square root is
the L2 norm. -/
def sumSq (a : List ℚ) : ℚ := (a.map (fun x => x * x)).sum

end Vector

namespace Store

/-- One row of the `context_memory` table, as enumerated by `Search`
(src/unnamed/part_019): the embedding is already decoded, with float32
components idealized as rationals. -/
structure SearchRow where
  id : GoStr
  summaryText : GoStr
  embedding : List ℚ

/-- The scan loop of `Search`: for each row in enumeration order (the SQL
`ORDER BY timestamp DESC`), compute the cosine similarity against the query
and collect `(summary, similarity)`; the first error aborts the scan. -/
def scoreRows (sqrtF : ℚ → ℚ) (query : List ℚ) :
    List SearchRow → Except Vector.VectorError (List (GoStr × ℚ))
  | [] => .ok []
  | r :: rest =>
      match Vector.cosineSimilarity sqrtF query r.embedding with
      | .error e => .error e
      | .ok s =>
          match scoreRows sqrtF query rest with
          | .error e => .error e
          | .ok t => .ok ((r.summaryText, s) :: t)

/-- The postcondition `sort.Slice(results, less)` guarantees with
`less i j := results[i].Similarity > results[j].Similarity`: the output is
a permutation of the input in which no later element has a strictly larger
similarity.  `sort.Slice` is documented as **not** stable, so any such
permutation is a possible outcome. -/
def sortSlicePost (res sorted : List (GoStr × ℚ)) : Prop :=
  sorted.Perm res ∧ sorted.Pairwise (fun x y => ¬ (y.2 > x.2))

/-- The tail of `Search`: clamp `limit` to the number of results and emit
the first `limit` summaries of the sorted slice.  (`limit` is a Go `int`;
the handlers only ever pass positive values, and a negative value would
panic in `make([]string, limit)`, so it is taken as a `Nat`.) -/
def topSummaries (limit : Nat) (sorted : List (GoStr × ℚ)) : List GoStr :=
  let lim := if limit > sorted.length then sorted.length else limit
  (sorted.map Prod.fst).take lim

/-- The possible results of `SQLiteContextStore.Search`
(src/unnamed/part_019) on rows given in enumeration order (most recent
first by timestamp): some `sort.Slice` outcome of the scored rows,
truncated to the first `min(limit, count)` summaries. -/
def SearchOutcome (sqrtF : ℚ → ℚ) (query : List ℚ) (rows : List SearchRow)
    (limit : Nat) (out : List GoStr) : Prop :=
  ∃ res sorted, scoreRows sqrtF query rows = .ok res ∧ sortSlicePost res sorted ∧
    out = topSummaries limit sorted

/-- Stable insertion of an element into a descending-sorted list built from
the elements after it: the element skips only strictly larger scores, so
ties keep the original enumeration order. -/
def insertDesc (x : GoStr × ℚ) : List (GoStr × ℚ) → List (GoStr × ℚ)
  | [] => [x]
  | y :: ys => if y.2 > x.2 then y :: insertDesc x ys else x :: y :: ys

/-- The stable descending sort named by the specification: sorted by
similarity, ties kept in the underlying enumeration order. -/
def stableSortDesc (l : List (GoStr × ℚ)) : List (GoStr × ℚ) :=
  l.foldr insertDesc []

/-- A square-root oracle agreeing with the true (float) square root on the
values reached by the concrete examples below (`√1 = 1`, `√4 = 2`). -/
def sqrtEx (q : ℚ) : ℚ := if q = 4 then 2 else if q = 1 then 1 else q

end Store

namespace Server

/-- `time.Time` as the handlers use it: `Unix()` seconds and the `String()`
textual representation. -/
structure Timestamp where
  unix : Int
  text : GoStr

/-- One row of the persistent `context_memory` table. -/
structure Entry where
  id : GoStr
  summaryText : GoStr
  embedding : GoStr
  timestamp : Int

/-- The persistent store state. -/
abbrev StoreState := List Entry

/-- `SQLiteContextStore.Store` (src/unnamed/part_019): `INSERT OR REPLACE`
keyed by `id` — an upsert replacing all four columns. -/
def storePut (st : StoreState) (id summary blob : GoStr) (ts : Int) : StoreState :=
  st.filter (fun e => e.id ≠ id) ++ [⟨id, summary, blob, ts⟩]

/-- Modelled from the spec: the SQLite `Clear` implementation is not under
src/ (only the `ContextStore` interface declares it).  Spec: "removes every
row and returns how many were removed in a single transaction". -/
def storeClear (st : StoreState) : Nat × StoreState := (st.length, [])

/-- Modelled from the spec: the SQLite `Replace` implementation is not
under src/.  Spec: "semantically equivalent to `put` … The reference treats
it as an alias of `put`". -/
def storeReplace (st : StoreState) (id summary blob : GoStr) (ts : Int) : StoreState :=
  storePut st id summary blob ts

/-- `errortypes.TypedError.Error()` (src/internal/errortypes): the wrapping
message, a colon and a space, then the wrapped error text; the bare error
text when the message is empty. -/
def typedErrorMsg (msg e : GoStr) : GoStr :=
  if msg = [] then e else msg ++ strBytes (": ") ++ e

/-- `tools.DefaultRetrieveLimit` (src/internal/tools/schemas.go). -/
def defaultRetrieveLimit : Int := 5

/-- `tools.SaveContextRequest`. -/
structure SaveContextRequest where
  contextText : GoStr

/-- `tools.SaveContextResponse`. -/
structure SaveContextResponse where
  status : String
  id : GoStr
  error : GoStr

/-- `tools.RetrieveContextRequest`; an omitted `limit` field decodes to the
Go zero value `0`. -/
structure RetrieveContextRequest where
  query : GoStr
  limit : Int

/-- `tools.RetrieveContextResponse`. -/
structure RetrieveContextResponse where
  status : String
  results : List GoStr
  error : GoStr

/-- `tools.ClearAllContextRequest`. -/
structure ClearAllContextRequest where
  confirmation : GoStr

/-- `tools.ClearAllContextResponse`. -/
structure ClearAllContextResponse where
  status : String
  deletedCount : Nat
  error : GoStr

/-- `tools.ReplaceContextRequest`. -/
structure ReplaceContextRequest where
  id : GoStr
  contextText : GoStr

/-- `tools.ReplaceContextResponse`. -/
structure ReplaceContextResponse where
  status : String
  error : GoStr

/-- `handleSaveContext` (src/internal/server/server.go).  The summarizer and
embedder interface fields are function parameters; the embedder's float32
components are modelled by their 32-bit patterns, since the save path only
re-encodes them.  `Float32SliceToBytes` cannot fail (see its definition), and
the modelled `storePut` never fails, so those two error branches of the
source are dead in the model. -/
def handleSaveContext (summarizer : GoStr → Except GoStr GoStr)
    (embedder : GoStr → Except GoStr (List Nat)) (now : Timestamp)
    (st : StoreState) (req : SaveContextRequest) : SaveContextResponse × StoreState :=
  match summarizer req.contextText with
  | .error e =>
      ({ status := "error", id := [],
         error := typedErrorMsg (strBytes ("failed to summarize text")) e }, st)
  | .ok summary =>
      match embedder summary with
      | .error e =>
          ({ status := "error", id := [],
             error := typedErrorMsg (strBytes ("failed to create embedding")) e }, st)
      | .ok embedding =>
          let embeddingBytes := Vector.float32SliceToBytes embedding
          let id := (Sha256.hexEncode (Sha256.sha256 (summary ++ now.text))).take 16
          ({ status := "success", id := id, error := [] },
           storePut st id summary embeddingBytes now.unix)

/-- `handleRetrieveContext` (src/internal/server/server.go).  The embedder
and the store's `Search` method are function parameters (the latter with the
`ContextStore` interface signature, taking the Go `int` limit). -/
def handleRetrieveContext (embedder : GoStr → Except GoStr (List ℚ))
    (search : List ℚ → Int → Except GoStr (List GoStr))
    (req : RetrieveContextRequest) : RetrieveContextResponse :=
  let limit := if req.limit ≤ 0 then defaultRetrieveLimit else req.limit
  match embedder req.query with
  | .error e =>
      { status := "error", results := [],
        error := typedErrorMsg (strBytes ("failed to create embedding for query")) e }
  | .ok queryEmbedding =>
      match search queryEmbedding limit with
      | .error e =>
          { status := "error", results := [],
            error := typedErrorMsg (strBytes ("failed to search context store")) e }
      | .ok results => { status := "success", results := results, error := [] }

/-- `handleClearAllContext` (src/internal/server/server.go): the literal
confirmation gate, then `Clear`. -/
def handleClearAllContext (st : StoreState) (req : ClearAllContextRequest) :
    ClearAllContextResponse × StoreState :=
  if req.confirmation ≠ strBytes ("confirm") then
    ({ status := "error", deletedCount := 0,
       error := strBytes
         ("Confirmation required. Set confirmation to \x27confirm\x27 to proceed with clearing all context") },
     st)
  else
    let cleared := storeClear st
    ({ status := "success", deletedCount := cleared.1, error := [] }, cleared.2)

/-- `handleReplaceContext` (src/internal/server/server.go): id validation,
then the same summarize → embed → encode → write pipeline as save, writing
through `storeReplace` at the requested id. -/
def handleReplaceContext (summarizer : GoStr → Except GoStr GoStr)
    (embedder : GoStr → Except GoStr (List Nat)) (now : Timestamp)
    (st : StoreState) (req : ReplaceContextRequest) : ReplaceContextResponse × StoreState :=
  if req.id = [] then
    ({ status := "error",
       error := typedErrorMsg (strBytes ("invalid replace_context request"))
         (strBytes ("id cannot be empty for replace_context")) }, st)
  else
    match summarizer req.contextText with
    | .error e =>
        ({ status := "error",
           error := typedErrorMsg
             (strBytes ("failed to summarize new text for replace_context")) e }, st)
    | .ok summary =>
        match embedder summary with
        | .error e =>
            ({ status := "error",
               error := typedErrorMsg
                 (strBytes ("failed to create new embedding for replace_context")) e }, st)
        | .ok embedding =>
            let embeddingBytes := Vector.float32SliceToBytes embedding
            ({ status := "success", error := [] },
             storeReplace st req.id summary embeddingBytes now.unix)

end Server

end ProjectMemory

namespace ProjectMemory

namespace Vector

theorem u32ToLEBytes_length (x : Nat) : (u32ToLEBytes x).length = 4 := rfl

theorem u32FromLEBytes_u32ToLEBytes (x : Nat) (hx : x < 2 ^ 32) :
    u32FromLEBytes (u32ToLEBytes x) = x := by
  simp only [u32ToLEBytes, u32FromLEBytes, List.getD_cons_zero, List.getD_cons_succ]
  omega

theorem bytesOfWords_length (l : List Nat) : (bytesOfWords l).length = 4 * l.length := by
  induction l with
  | nil => rfl
  | cons f rest ih => simp [bytesOfWords, ih, u32ToLEBytes_length]; omega

theorem bytesToWordsLE_length (n : Nat) (bs : List Nat) :
    (bytesToWordsLE n bs).length = n := by
  induction n generalizing bs with
  | zero => rfl
  | succ n ih => simp [bytesToWordsLE, ih]

theorem bytesToWordsLE_bytesOfWords (l : List Nat) (hval : ∀ f ∈ l, f < 2 ^ 32) :
    bytesToWordsLE l.length (bytesOfWords l) = l := by
  induction l with
  | nil => rfl
  | cons f rest ih =>
      have hf : f < 2 ^ 32 := hval f (List.mem_cons_self _ _)
      have htake : (u32ToLEBytes f ++ bytesOfWords rest).take 4 = u32ToLEBytes f :=
        List.take_left' (u32ToLEBytes_length f)
      have hdrop : (u32ToLEBytes f ++ bytesOfWords rest).drop 4 = bytesOfWords rest :=
        List.drop_left' (u32ToLEBytes_length f)
      simp only [List.length_cons, bytesOfWords, bytesToWordsLE, htake, hdrop,
        u32FromLEBytes_u32ToLEBytes f hf]
      exact congrArg _ (ih (fun g hg => hval g (List.mem_cons_of_mem _ hg)))

theorem decode_of_short (data : List Nat) (h : data.length < 4) :
    bytesToFloat32Slice data = .err := by
  unfold bytesToFloat32Slice
  rw [if_pos h]

theorem decode_of_neg (data : List Nat) (h4 : ¬ data.length < 4)
    (hneg : headerLen data < 0) : bytesToFloat32Slice data = .crash := by
  unfold bytesToFloat32Slice
  rw [if_neg h4]
  simp only [if_pos hneg]

theorem decode_of_insufficient (data : List Nat) (h4 : ¬ data.length < 4)
    (hpos : ¬ headerLen data < 0)
    (hsz : data.length - 4 < 4 * (headerLen data).toNat) :
    bytesToFloat32Slice data = .err := by
  unfold bytesToFloat32Slice
  rw [if_neg h4]
  simp only [if_neg hpos, if_pos hsz]

theorem decode_of_sufficient (data : List Nat) (h4 : ¬ data.length < 4)
    (hpos : ¬ headerLen data < 0)
    (hsz : ¬ data.length - 4 < 4 * (headerLen data).toNat) :
    bytesToFloat32Slice data
      = .ok (bytesToWordsLE (headerLen data).toNat (data.drop 4)) := by
  unfold bytesToFloat32Slice
  rw [if_neg h4]
  simp only [if_neg hpos, if_neg hsz]

theorem headerLen_encode (floats : List Nat) (hlen : floats.length < 2 ^ 31) :
    headerLen (float32SliceToBytes floats) = (floats.length : Int) := by
  have hmod : floats.length % 2 ^ 32 = floats.length := Nat.mod_eq_of_lt (by omega)
  have htake :
      (u32ToLEBytes (floats.length % 2 ^ 32) ++ bytesOfWords floats).take 4
        = u32ToLEBytes (floats.length % 2 ^ 32) :=
    List.take_left' (u32ToLEBytes_length _)
  unfold headerLen float32SliceToBytes
  rw [htake, u32FromLEBytes_u32ToLEBytes _ (Nat.mod_lt _ (by norm_num)), hmod]
  unfold toInt32
  rw [hmod, if_pos hlen]
  omega

theorem length_encode (floats : List Nat) :
    (float32SliceToBytes floats).length = 4 + 4 * floats.length := by
  unfold float32SliceToBytes
  simp [u32ToLEBytes_length, bytesOfWords_length]

end Vector

end ProjectMemory

namespace ProjectMemory

/-- C2: decoding the blob produced by encoding a float32 vector yields
exactly the vector again, bitwise.  Float32 values are their 32-bit
patterns (below `2 ^ 32`); a vector is encodable when its length fits a
nonnegative `int32`. -/
theorem decode_encode_roundtrip (floats : List Nat)
    (hlen : floats.length < 2 ^ 31) (hval : ∀ f ∈ floats, f < 2 ^ 32) :
    Vector.bytesToFloat32Slice (Vector.float32SliceToBytes floats) = .ok floats := by
  have hhdr := Vector.headerLen_encode floats hlen
  have hdlen := Vector.length_encode floats
  have h4 : ¬ (Vector.float32SliceToBytes floats).length < 4 := by omega
  have hpos : ¬ Vector.headerLen (Vector.float32SliceToBytes floats) < 0 := by
    rw [hhdr]; omega
  have htoNat : (Vector.headerLen (Vector.float32SliceToBytes floats)).toNat
      = floats.length := by rw [hhdr]; exact Int.toNat_natCast _
  have hsz : ¬ (Vector.float32SliceToBytes floats).length - 4
      < 4 * (Vector.headerLen (Vector.float32SliceToBytes floats)).toNat := by
    rw [htoNat]; omega
  rw [Vector.decode_of_sufficient _ h4 hpos hsz, htoNat]
  have hdrop : (Vector.float32SliceToBytes floats).drop 4 = Vector.bytesOfWords floats := by
    unfold Vector.float32SliceToBytes
    exact List.drop_left' (Vector.u32ToLEBytes_length _)
  rw [hdrop]
  exact congrArg _ (Vector.bytesToWordsLE_bytesOfWords floats hval)

/-- Witness for C2 at the concrete vector `[3, 2 ^ 32 - 1]`. -/
theorem decode_encode_roundtrip_witness :
    Vector.bytesToFloat32Slice (Vector.float32SliceToBytes [3, 2 ^ 32 - 1])
      = .ok [3, 2 ^ 32 - 1] :=
  decode_encode_roundtrip [3, 2 ^ 32 - 1] (by decide) (by decide)

/-- C3 counterexample: the blob `[0, 0, 0, 0]` declares `N = 0 ≤ 0`, for
which the claim demands a decode error, yet `BytesToFloat32Slice` succeeds
and returns the empty vector.  (Likewise the claim demands failure whenever
the prefix differs from the remaining byte count over 4, yet a blob with
trailing bytes beyond `4 * N`, such as `[1,0,0,0]` followed by 8 bytes,
decodes successfully.) -/
theorem decode_zero_len_ok : Vector.bytesToFloat32Slice [0, 0, 0, 0] = .ok [] := by
  decide

/-- C3 amended: decoding returns an error exactly when the blob has fewer
than 4 bytes, or when the declared nonnegative prefix `N` requires more
payload than remains (`len(data) < 4 + 4 * N`); with enough payload it
succeeds and returns `N` values (trailing bytes are ignored), and `N = 0`
succeeds with the empty vector; a negative prefix causes a runtime panic
rather than an error return. -/
theorem decode_err_characterization (data : List Nat) :
    (data.length < 4 → Vector.bytesToFloat32Slice data = .err) ∧
    (4 ≤ data.length → 0 ≤ Vector.headerLen data →
      (Vector.bytesToFloat32Slice data = .err ↔
        data.length < 4 + 4 * (Vector.headerLen data).toNat)) ∧
    (4 ≤ data.length → 0 ≤ Vector.headerLen data →
        4 + 4 * (Vector.headerLen data).toNat ≤ data.length →
      ∃ v, Vector.bytesToFloat32Slice data = .ok v ∧
        v.length = (Vector.headerLen data).toNat) ∧
    (4 ≤ data.length → Vector.headerLen data < 0 →
      Vector.bytesToFloat32Slice data = .crash) := by
  refine ⟨fun h => Vector.decode_of_short data h, fun h4 hpos => ?_, fun h4 hpos hsz => ?_,
    fun h4 hneg => Vector.decode_of_neg data (by omega) hneg⟩
  · constructor
    · intro herr
      by_contra hlt
      rw [Vector.decode_of_sufficient data (by omega) (by omega) (by omega)] at herr
      exact Vector.DecodeResult.noConfusion herr
    · intro hlt
      exact Vector.decode_of_insufficient data (by omega) (by omega) (by omega)
  · refine ⟨Vector.bytesToWordsLE (Vector.headerLen data).toNat (data.drop 4),
      Vector.decode_of_sufficient data (by omega) (by omega) (by omega), ?_⟩
    exact Vector.bytesToWordsLE_length _ _

/-- Witness for C3: a prefix of 2 with exactly 8 payload bytes decodes to
two values, and a 4-byte blob whose prefix declares more payload than
remains errs. -/
theorem decode_err_characterization_witness :
    (∃ v, Vector.bytesToFloat32Slice [2, 0, 0, 0, 1, 1, 1, 1, 2, 2, 2, 2] = .ok v ∧
        v.length = (Vector.headerLen [2, 0, 0, 0, 1, 1, 1, 1, 2, 2, 2, 2]).toNat) ∧
    Vector.bytesToFloat32Slice [1, 0, 0, 0] = .err := by
  refine ⟨(decode_err_characterization _).2.2.1 (by decide) (by decide) (by decide), ?_⟩
  exact ((decode_err_characterization [1, 0, 0, 0]).2.1 (by decide) (by decide)).mpr
    (by decide)

/-- C10: a byte blob whose first four bytes decode to a negative
little-endian `int32` escapes the error-return path: the decode is a
runtime panic at the slice allocation, not an error value. -/
theorem decode_negative_len_crashes (data : List Nat) (h4 : 4 ≤ data.length)
    (hneg : Vector.headerLen data < 0) :
    Vector.bytesToFloat32Slice data = .crash ∧
      Vector.bytesToFloat32Slice data ≠ .err := by
  have h := Vector.decode_of_neg data (by omega) hneg
  exact ⟨h, by rw [h]; exact fun hc => Vector.DecodeResult.noConfusion hc⟩

/-- Witness for C10 at the all-ones blob, whose prefix is `-1`. -/
theorem decode_negative_len_crashes_witness :
    Vector.bytesToFloat32Slice [255, 255, 255, 255] = .crash ∧
      Vector.bytesToFloat32Slice [255, 255, 255, 255] ≠ .err :=
  decode_negative_len_crashes [255, 255, 255, 255] (by decide) (by decide)

theorem strBytes_ne_nil (s : String) (h : s ≠ "") : strBytes s ≠ [] := by
  unfold strBytes
  intro hc
  rw [List.map_eq_nil_iff] at hc
  exact h (String.ext hc)

theorem typedErrorMsg_ne_nil (msg e : GoStr) (h : msg ≠ []) :
    Server.typedErrorMsg msg e ≠ [] := by
  unfold Server.typedErrorMsg
  rw [if_neg h]
  simp [h]

/-- C4: `clear_all_context` with any confirmation other than the exact
literal `"confirm"` returns an error envelope with a non-empty message and
leaves the store unchanged (Clear is not invoked); with the exact literal,
Clear is invoked, the store is emptied, and the number of removed rows is
returned as `deleted_count`. -/
theorem clear_all_confirmation_gate (st : Server.StoreState)
    (req : Server.ClearAllContextRequest) :
    (req.confirmation ≠ strBytes ("confirm") →
      (Server.handleClearAllContext st req).1.status = "error" ∧
      (Server.handleClearAllContext st req).1.error ≠ [] ∧
      (Server.handleClearAllContext st req).2 = st) ∧
    (req.confirmation = strBytes ("confirm") →
      (Server.handleClearAllContext st req).1.status = "success" ∧
      (Server.handleClearAllContext st req).1.deletedCount = st.length ∧
      (Server.handleClearAllContext st req).2 = []) := by
  unfold Server.handleClearAllContext
  constructor
  · intro h
    rw [if_pos h]
    exact ⟨rfl, strBytes_ne_nil _ (by decide), rfl⟩
  · intro h
    rw [if_neg (not_not_intro h)]
    exact ⟨rfl, rfl, rfl⟩

/-- Witness for C4: a one-row store with a wrong and with the exact
confirmation. -/
theorem clear_all_confirmation_gate_witness :
    (Server.handleClearAllContext [⟨[1], [2], [3], 0⟩] ⟨strBytes ("yes")⟩).1.status
        = "error" ∧
      (Server.handleClearAllContext [⟨[1], [2], [3], 0⟩] ⟨strBytes ("yes")⟩).2
        = [⟨[1], [2], [3], 0⟩] ∧
      (Server.handleClearAllContext [⟨[1], [2], [3], 0⟩] ⟨strBytes ("confirm")⟩).1.deletedCount
        = 1 ∧
      (Server.handleClearAllContext [⟨[1], [2], [3], 0⟩] ⟨strBytes ("confirm")⟩).2 = [] := by
  refine ⟨((clear_all_confirmation_gate _ _).1 (by decide)).1,
    ((clear_all_confirmation_gate _ _).1 (by decide)).2.2,
    ((clear_all_confirmation_gate _ _).2 rfl).2.1,
    ((clear_all_confirmation_gate _ _).2 rfl).2.2⟩

/-- C5: in `save_context` and `replace_context`, a failing summarizer or
embedder (and a failing vector encoding, which the model shows cannot occur)
short-circuits to an error envelope with a non-empty message and leaves the
store exactly as it was; the store write happens only when every prior step
succeeded. -/
theorem save_replace_no_partial_effects
    (summarizer : GoStr → Except GoStr GoStr)
    (embedder : GoStr → Except GoStr (List Nat)) (now : Server.Timestamp)
    (st : Server.StoreState) (req : Server.SaveContextRequest)
    (reqR : Server.ReplaceContextRequest) :
    (∀ e, summarizer req.contextText = .error e →
      (Server.handleSaveContext summarizer embedder now st req).1.status = "error" ∧
      (Server.handleSaveContext summarizer embedder now st req).1.error ≠ [] ∧
      (Server.handleSaveContext summarizer embedder now st req).2 = st) ∧
    (∀ s e, summarizer req.contextText = .ok s → embedder s = .error e →
      (Server.handleSaveContext summarizer embedder now st req).1.status = "error" ∧
      (Server.handleSaveContext summarizer embedder now st req).1.error ≠ [] ∧
      (Server.handleSaveContext summarizer embedder now st req).2 = st) ∧
    (∀ s emb, summarizer req.contextText = .ok s → embedder s = .ok emb →
      (Server.handleSaveContext summarizer embedder now st req).2
        = Server.storePut st
            ((Sha256.hexEncode (Sha256.sha256 (s ++ now.text))).take 16) s
            (Vector.float32SliceToBytes emb) now.unix) ∧
    (∀ e, summarizer reqR.contextText = .error e →
      (Server.handleReplaceContext summarizer embedder now st reqR).1.status = "error" ∧
      (Server.handleReplaceContext summarizer embedder now st reqR).1.error ≠ [] ∧
      (Server.handleReplaceContext summarizer embedder now st reqR).2 = st) ∧
    (∀ s e, summarizer reqR.contextText = .ok s → embedder s = .error e →
      (Server.handleReplaceContext summarizer embedder now st reqR).1.status = "error" ∧
      (Server.handleReplaceContext summarizer embedder now st reqR).1.error ≠ [] ∧
      (Server.handleReplaceContext summarizer embedder now st reqR).2 = st) := by
  have h1 : strBytes ("failed to summarize text") ≠ [] := strBytes_ne_nil _ (by decide)
  have h2 : strBytes ("failed to create embedding") ≠ [] := strBytes_ne_nil _ (by decide)
  have h3 : strBytes ("invalid replace_context request") ≠ [] := strBytes_ne_nil _ (by decide)
  have h4 : strBytes ("failed to summarize new text for replace_context") ≠ [] :=
    strBytes_ne_nil _ (by decide)
  have h5 : strBytes ("failed to create new embedding for replace_context") ≠ [] :=
    strBytes_ne_nil _ (by decide)
  refine ⟨fun e he => ?_, fun s e hs he => ?_, fun s emb hs hemb => ?_,
    fun e he => ?_, fun s e hs he => ?_⟩
  · simp only [Server.handleSaveContext, he]
    exact ⟨trivial, typedErrorMsg_ne_nil _ e h1, trivial⟩
  · simp only [Server.handleSaveContext, hs, he]
    exact ⟨trivial, typedErrorMsg_ne_nil _ e h2, trivial⟩
  · simp only [Server.handleSaveContext, hs, hemb]
  · by_cases hid : reqR.id = []
    · simp only [Server.handleReplaceContext, if_pos hid]
      exact ⟨trivial, typedErrorMsg_ne_nil _ _ h3, trivial⟩
    · simp only [Server.handleReplaceContext, if_neg hid, he]
      exact ⟨trivial, typedErrorMsg_ne_nil _ e h4, trivial⟩
  · by_cases hid : reqR.id = []
    · simp only [Server.handleReplaceContext, if_pos hid]
      exact ⟨trivial, typedErrorMsg_ne_nil _ _ h3, trivial⟩
    · simp only [Server.handleReplaceContext, if_neg hid, hs, he]
      exact ⟨trivial, typedErrorMsg_ne_nil _ e h5, trivial⟩

/-- Witness for C5: a summarizer that fails on save and an embedder that
fails on replace, over a one-row store. -/
theorem save_replace_no_partial_effects_witness :
    ((Server.handleSaveContext (fun _ => .error [7]) (fun _ => .ok [1])
        ⟨0, [48]⟩ [⟨[1], [2], [3], 0⟩] ⟨[5]⟩).1.status = "error" ∧
      (Server.handleSaveContext (fun _ => .error [7]) (fun _ => .ok [1])
        ⟨0, [48]⟩ [⟨[1], [2], [3], 0⟩] ⟨[5]⟩).1.error ≠ [] ∧
      (Server.handleSaveContext (fun _ => .error [7]) (fun _ => .ok [1])
        ⟨0, [48]⟩ [⟨[1], [2], [3], 0⟩] ⟨[5]⟩).2 = [⟨[1], [2], [3], 0⟩]) ∧
    ((Server.handleReplaceContext (fun _ => .ok [6]) (fun _ => .error [8])
        ⟨0, [48]⟩ [⟨[1], [2], [3], 0⟩] ⟨[9], [5]⟩).1.status = "error" ∧
      (Server.handleReplaceContext (fun _ => .ok [6]) (fun _ => .error [8])
        ⟨0, [48]⟩ [⟨[1], [2], [3], 0⟩] ⟨[9], [5]⟩).1.error ≠ [] ∧
      (Server.handleReplaceContext (fun _ => .ok [6]) (fun _ => .error [8])
        ⟨0, [48]⟩ [⟨[1], [2], [3], 0⟩] ⟨[9], [5]⟩).2 = [⟨[1], [2], [3], 0⟩]) := by
  refine ⟨(save_replace_no_partial_effects _ _ _ _ ⟨[5]⟩ ⟨[9], [5]⟩).1 [7] rfl, ?_⟩
  exact (save_replace_no_partial_effects _ _ _ _ ⟨[5]⟩ ⟨[9], [5]⟩).2.2.2.2 [6] [8] rfl rfl

theorem sha256_length (msg : List Nat) : (Sha256.sha256 msg).length = 32 := by
  simp [Sha256.sha256, Sha256.u32ToBEBytes]

theorem u32ToBEBytes_mem_lt (x : Nat) : ∀ c ∈ Sha256.u32ToBEBytes x, c < 256 := by
  intro c hc
  simp only [Sha256.u32ToBEBytes, List.mem_cons, List.not_mem_nil, or_false] at hc
  rcases hc with h | h | h | h <;> omega

theorem sha256_mem_lt (msg : List Nat) : ∀ c ∈ Sha256.sha256 msg, c < 256 := by
  intro c hc
  simp only [Sha256.sha256, Sha256.u32ToBEBytes, List.mem_append, List.mem_cons,
    List.not_mem_nil, or_false] at hc
  rcases hc with h|h|h|h|h|h|h|h|h|h|h|h|h|h|h|h|h|h|h|h|h|h|h|h|h|h|h|h|h|h|h|h <;>
    omega

theorem hexEncode_length (l : List Nat) : (Sha256.hexEncode l).length = 2 * l.length := by
  induction l with
  | nil => rfl
  | cons b rest ih => simp [Sha256.hexEncode, ih]; omega

theorem hexEncode_mem_lower_hex (l : List Nat) (hb : ∀ b ∈ l, b < 256) :
    ∀ c ∈ Sha256.hexEncode l, (48 ≤ c ∧ c ≤ 57) ∨ (97 ≤ c ∧ c ≤ 102) := by
  induction l with
  | nil => simp [Sha256.hexEncode]
  | cons b rest ih =>
      intro c hc
      have hb0 : b < 256 := hb b (List.mem_cons_self _ _)
      simp only [Sha256.hexEncode, List.mem_cons] at hc
      rcases hc with rfl | rfl | hc
      · unfold Sha256.hexDigit; split_ifs <;> omega
      · unfold Sha256.hexDigit; split_ifs <;> omega
      · exact ih (fun x hx => hb x (List.mem_cons_of_mem _ hx)) c hc

/-- C7: for every successful `save_context`, the returned id is the first
16 characters of the lowercase hexadecimal encoding of the SHA-256 digest
of the summary bytes concatenated with the textual representation of the
save-time timestamp; accordingly it is 16 bytes long and every byte is a
lowercase hex digit (`0`–`9`, `a`–`f`). -/
theorem save_id_derivation
    (summarizer : GoStr → Except GoStr GoStr)
    (embedder : GoStr → Except GoStr (List Nat)) (now : Server.Timestamp)
    (st : Server.StoreState) (req : Server.SaveContextRequest) (s : GoStr)
    (emb : List Nat) (hs : summarizer req.contextText = .ok s)
    (hemb : embedder s = .ok emb) :
    (Server.handleSaveContext summarizer embedder now st req).1.status = "success" ∧
    (Server.handleSaveContext summarizer embedder now st req).1.id
      = (Sha256.hexEncode (Sha256.sha256 (s ++ now.text))).take 16 ∧
    (Server.handleSaveContext summarizer embedder now st req).1.id.length = 16 ∧
    (∀ c ∈ (Server.handleSaveContext summarizer embedder now st req).1.id,
      (48 ≤ c ∧ c ≤ 57) ∨ (97 ≤ c ∧ c ≤ 102)) := by
  have hid : (Server.handleSaveContext summarizer embedder now st req).1
      = { status := "success",
          id := (Sha256.hexEncode (Sha256.sha256 (s ++ now.text))).take 16,
          error := [] } := by
    simp only [Server.handleSaveContext, hs, hemb]
  rw [hid]
  refine ⟨rfl, rfl, ?_, fun c hc => ?_⟩
  · rw [List.length_take, hexEncode_length, sha256_length]
    norm_num
  · exact hexEncode_mem_lower_hex _ (sha256_mem_lt _) c (List.take_subset _ _ hc)

/-- Witness for C7 with constant summarizer and embedder oracles. -/
theorem save_id_derivation_witness :
    (Server.handleSaveContext (fun _ => .ok [97]) (fun _ => .ok [])
        ⟨0, [49]⟩ [] ⟨[120]⟩).1.status = "success" ∧
    (Server.handleSaveContext (fun _ => .ok [97]) (fun _ => .ok [])
        ⟨0, [49]⟩ [] ⟨[120]⟩).1.id
      = (Sha256.hexEncode (Sha256.sha256 ([97] ++ [49]))).take 16 ∧
    (Server.handleSaveContext (fun _ => .ok [97]) (fun _ => .ok [])
        ⟨0, [49]⟩ [] ⟨[120]⟩).1.id.length = 16 :=
  ⟨(save_id_derivation _ _ ⟨0, [49]⟩ [] ⟨[120]⟩ [97] [] rfl rfl).1,
   (save_id_derivation _ _ ⟨0, [49]⟩ [] ⟨[120]⟩ [97] [] rfl rfl).2.1,
   (save_id_derivation _ _ ⟨0, [49]⟩ [] ⟨[120]⟩ [97] [] rfl rfl).2.2.1⟩

theorem lastIndex_lt_length (c : Nat) (l : List Nat) :
    Summarizer.lastIndex c l < (l.length : Int) := by
  induction l with
  | nil => simp [Summarizer.lastIndex]
  | cons b rest ih =>
      simp only [Summarizer.lastIndex, List.length_cons]
      split_ifs <;> push_cast <;> omega

theorem ellipsis_length : (strBytes ("...")).length = 3 := rfl

theorem summarize_length_le (maxLen : Nat) (text : GoStr) (h3 : 3 ≤ maxLen) :
    (Summarizer.summarize maxLen text).length ≤ maxLen := by
  simp only [Summarizer.summarize]
  split_ifs with h1 h2 htr hsp hsp
  · exact h1
  · have l46 := lastIndex_lt_length 46 (text.take maxLen)
    have l63 := lastIndex_lt_length 63 (text.take maxLen)
    have l33 := lastIndex_lt_length 33 (text.take maxLen)
    rw [List.length_take] at l46 l63 l33
    rw [List.length_take]
    omega
  · have l32 := lastIndex_lt_length 32 (text.take (maxLen - 3))
    rw [List.length_take] at l32
    rw [List.length_append, List.length_take, ellipsis_length]
    omega
  · rw [List.length_append, List.length_take, ellipsis_length]
    omega
  · exact absurd (by omega : maxLen - 3 < text.length) htr
  · exact absurd (by omega : maxLen - 3 < text.length) htr

theorem summarize_ne_nil (maxLen : Nat) (text : GoStr) (h3 : 3 ≤ maxLen)
    (htext : text ≠ []) : Summarizer.summarize maxLen text ≠ [] := by
  have hell : strBytes ("...") ≠ [] := by decide
  have hlen : 0 < text.length := List.length_pos.mpr htext
  simp only [Summarizer.summarize]
  split_ifs with h1 h2 htr hsp hsp
  · exact htext
  · apply List.ne_nil_of_length_pos
    rw [List.length_take]
    omega
  · simp [List.append_eq_nil, hell]
  · simp [List.append_eq_nil, hell]
  · exact absurd (by omega : maxLen - 3 < text.length) htr
  · exact absurd (by omega : maxLen - 3 < text.length) htr

/-- C6 amended: for a configured bound of at least 3 bytes, the basic
summarizer always emits at most `maxLen` bytes, and emits a non-empty
summary for every **non-empty** input; the empty input is returned
unchanged, i.e. empty (refuting the unconditional non-emptiness and the
consequent "stored summary never empty": a successful save of empty text
stores an empty summary).  Accordingly, a save through the basic summarizer
preserves non-emptiness of every stored summary whenever the request text
is non-empty. -/
theorem summarize_spec (maxLen : Nat) (text : GoStr) (h3 : 3 ≤ maxLen) :
    (Summarizer.summarize maxLen text).length ≤ maxLen ∧
    (text ≠ [] → Summarizer.summarize maxLen text ≠ []) ∧
    (∀ (embedder : GoStr → Except GoStr (List Nat)) (now : Server.Timestamp)
        (st : Server.StoreState) (req : Server.SaveContextRequest),
      (∀ e ∈ st, e.summaryText ≠ []) → req.contextText ≠ [] →
      ∀ e ∈ (Server.handleSaveContext
          (fun t => .ok (Summarizer.summarize maxLen t)) embedder now st req).2,
        e.summaryText ≠ []) := by
  refine ⟨summarize_length_le maxLen text h3, summarize_ne_nil maxLen text h3,
    fun embedder now st req hst htext e he => ?_⟩
  cases hemb : embedder (Summarizer.summarize maxLen req.contextText) with
  | error er =>
      simp only [Server.handleSaveContext, hemb] at he
      exact hst e he
  | ok emb =>
      simp only [Server.handleSaveContext, hemb, Server.storePut] at he
      rcases List.mem_append.mp he with hmem | hmem
      · exact hst e (List.mem_of_mem_filter hmem)
      · rcases List.mem_singleton.mp hmem with rfl
        exact summarize_ne_nil maxLen req.contextText h3 htext

/-- Witness for C6 at the bound 5 and the one-byte text `"a"`. -/
theorem summarize_spec_witness :
    (Summarizer.summarize 5 [97]).length ≤ 5 ∧ Summarizer.summarize 5 [97] ≠ [] :=
  ⟨(summarize_spec 5 [97] (by decide)).1,
   (summarize_spec 5 [97] (by decide)).2.1 (by decide)⟩

/-- C6 counterexample: the empty input is within every bound and is
returned unchanged, so the basic summarizer (here with its default bound
200) emits the **empty** summary, refuting "non-empty for every input
text"; through `handleSaveContext` this empty summary is what a successful
save of empty text stores. -/
theorem summarize_empty_input : Summarizer.summarize 200 [] = [] := rfl

theorem cosine_foldl_acc (l : List (ℚ × ℚ)) (d n m : ℚ) :
    l.foldl
        (fun (s : ℚ × ℚ × ℚ) p => (s.1 + p.1 * p.2, s.2.1 + p.1 * p.1, s.2.2 + p.2 * p.2))
        (d, n, m)
      = (d + (l.map fun p => p.1 * p.2).sum, n + (l.map fun p => p.1 * p.1).sum,
         m + (l.map fun p => p.2 * p.2).sum) := by
  induction l generalizing d n m with
  | nil => simp
  | cons p t ih => simp [ih]; refine ⟨by ring, by ring, by ring⟩

theorem zip_map_mul (a b : List ℚ) :
    ((a.zip b).map fun p => p.1 * p.2) = List.zipWith (· * ·) a b := by
  induction a generalizing b with
  | nil => simp
  | cons x xs ih => cases b <;> simp [ih]

theorem zip_map_sq_left (a b : List ℚ) (h : a.length = b.length) :
    ((a.zip b).map fun p => p.1 * p.1) = a.map fun x => x * x := by
  induction a generalizing b with
  | nil => simp
  | cons x xs ih =>
      cases b with
      | nil => exact absurd h (by simp)
      | cons y ys => simp [ih ys (by simpa using h)]

theorem zip_map_sq_right (a b : List ℚ) (h : a.length = b.length) :
    ((a.zip b).map fun p => p.2 * p.2) = b.map fun x => x * x := by
  induction a generalizing b with
  | nil => cases b with
      | nil => simp
      | cons y ys => exact absurd h (by simp)
  | cons x xs ih =>
      cases b with
      | nil => exact absurd h (by simp)
      | cons y ys => simp [ih ys (by simpa using h)]

theorem sumSq_nonneg (a : List ℚ) : 0 ≤ Vector.sumSq a := by
  induction a with
  | nil => simp [Vector.sumSq]
  | cons x xs ih =>
      have : 0 ≤ x * x := mul_self_nonneg x
      simp only [Vector.sumSq, List.map_cons, List.sum_cons] at ih ⊢
      linarith

theorem sumSq_eq_zero_iff (a : List ℚ) : Vector.sumSq a = 0 ↔ ∀ x ∈ a, x = 0 := by
  induction a with
  | nil => simp [Vector.sumSq]
  | cons x xs ih =>
      have hx : 0 ≤ x * x := mul_self_nonneg x
      have hxs : 0 ≤ (xs.map fun x => x * x).sum := by
        simpa [Vector.sumSq] using sumSq_nonneg xs
      simp only [Vector.sumSq, List.map_cons, List.sum_cons, List.mem_cons] at ih ⊢
      constructor
      · intro h
        have hx0 : x * x = 0 := by linarith
        have hs0 : (xs.map fun x => x * x).sum = 0 := by linarith
        have := mul_self_eq_zero.mp hx0
        exact fun y hy => hy.elim (fun hyx => hyx ▸ this) (fun hmem => (ih.mp hs0) y hmem)
      · intro h
        have hx0 : x = 0 := h x (Or.inl rfl)
        have hs0 : (xs.map fun x => x * x).sum = 0 :=
          ih.mpr fun y hy => h y (Or.inr hy)
        simp [hx0, hs0]

theorem cosine_acc_eq (a b : List ℚ) (h : a.length = b.length) :
    (a.zip b).foldl
        (fun (s : ℚ × ℚ × ℚ) p => (s.1 + p.1 * p.2, s.2.1 + p.1 * p.1, s.2.2 + p.2 * p.2))
        (0, 0, 0)
      = (Vector.dotProd a b, Vector.sumSq a, Vector.sumSq b) := by
  rw [cosine_foldl_acc, zip_map_mul, zip_map_sq_left a b h, zip_map_sq_right a b h]
  simp [Vector.dotProd, Vector.sumSq]

/-- C8: cosine similarity errs with a dimension mismatch when the lengths
differ, errs with a zero-vector error when either vector has zero norm
(over exact arithmetic, the accumulated sum of squares is zero exactly when
the vector is all zeros, i.e. has zero norm), and otherwise returns the dot
product divided by the product of the two norms — each norm being the
square-root oracle applied to the accumulated sum of squares. -/
theorem cosine_similarity_spec (sqrtF : ℚ → ℚ) (a b : List ℚ) :
    (a.length ≠ b.length →
      Vector.cosineSimilarity sqrtF a b = .error .dimensionMismatch) ∧
    (a.length = b.length → (Vector.sumSq a = 0 ∨ Vector.sumSq b = 0) →
      Vector.cosineSimilarity sqrtF a b = .error .zeroVector) ∧
    (a.length = b.length → Vector.sumSq a ≠ 0 → Vector.sumSq b ≠ 0 →
      Vector.cosineSimilarity sqrtF a b
        = .ok (Vector.dotProd a b / (sqrtF (Vector.sumSq a) * sqrtF (Vector.sumSq b)))) ∧
    (Vector.sumSq a = 0 ↔ ∀ x ∈ a, x = 0) := by
  refine ⟨fun hne => ?_, fun h hz => ?_, fun h hza hzb => ?_, sumSq_eq_zero_iff a⟩
  · unfold Vector.cosineSimilarity
    rw [if_pos hne]
  · unfold Vector.cosineSimilarity
    rw [if_neg (not_not_intro h)]
    simp only [cosine_acc_eq a b h]
    rw [if_pos hz]
  · unfold Vector.cosineSimilarity
    rw [if_neg (not_not_intro h)]
    simp only [cosine_acc_eq a b h]
    rw [if_neg (by push_neg; exact ⟨hza, hzb⟩)]

/-- Witness for C8: a length mismatch and a successful similarity at
concrete vectors, with the identity as the square-root oracle. -/
theorem cosine_similarity_spec_witness :
    Vector.cosineSimilarity id [1, 2] [3] = .error .dimensionMismatch ∧
    Vector.cosineSimilarity id [1, 2] [2, 0]
      = .ok (Vector.dotProd [1, 2] [2, 0]
          / (id (Vector.sumSq [1, 2]) * id (Vector.sumSq [2, 0]))) := by
  refine ⟨(cosine_similarity_spec id [1, 2] [3]).1 (by decide), ?_⟩
  exact (cosine_similarity_spec id [1, 2] [2, 0]).2.2.1 rfl
    (by norm_num [Vector.sumSq]) (by norm_num [Vector.sumSq])

/-- C9: `retrieve_context` with an omitted, zero, or negative limit behaves
exactly as if the limit were the default 5; a positive limit is passed to
the store search unchanged. -/
theorem retrieve_default_limit (embedder : GoStr → Except GoStr (List ℚ))
    (search : List ℚ → Int → Except GoStr (List GoStr))
    (req : Server.RetrieveContextRequest) :
    (req.limit ≤ 0 →
      Server.handleRetrieveContext embedder search req
        = Server.handleRetrieveContext embedder search ⟨req.query, 5⟩) ∧
    (0 < req.limit →
      Server.handleRetrieveContext embedder search req
        = Server.handleRetrieveContext embedder (fun v _ => search v req.limit) req) := by
  constructor
  · intro h
    simp [Server.handleRetrieveContext, if_pos h, Server.defaultRetrieveLimit]
  · intro h
    have hne : ¬ req.limit ≤ 0 := by omega
    simp [Server.handleRetrieveContext, if_neg hne]

/-- Witness for C9: a search oracle that reports the limit it was given;
with a zero request limit it is invoked with 5. -/
theorem retrieve_default_limit_witness :
    Server.handleRetrieveContext (fun _ => .ok []) (fun _ l => .ok [[l.toNat]])
        ⟨[113], 0⟩
      = Server.handleRetrieveContext (fun _ => .ok []) (fun _ l => .ok [[l.toNat]])
        ⟨[113], 5⟩ ∧
    Server.handleRetrieveContext (fun _ => .ok []) (fun _ l => .ok [[l.toNat]])
        ⟨[113], 0⟩
      = { status := "success", results := [[5]], error := [] } := by
  refine ⟨(retrieve_default_limit _ _ _).1 (by decide), ?_⟩
  rw [(retrieve_default_limit (fun _ => .ok []) (fun _ l => .ok [[l.toNat]])
    ⟨[113], 0⟩).1 (by decide)]
  rfl

theorem scoreRows_ok_length (sqrtF : ℚ → ℚ) (q : List ℚ) (rows : List Store.SearchRow) :
    ∀ res, Store.scoreRows sqrtF q rows = .ok res → res.length = rows.length := by
  induction rows with
  | nil =>
      intro res h
      simp only [Store.scoreRows] at h
      injection h with h2
      rw [← h2]
      rfl
  | cons r t ih =>
      intro res h
      simp only [Store.scoreRows] at h
      cases hcos : Vector.cosineSimilarity sqrtF q r.embedding with
      | error e => rw [hcos] at h; cases h
      | ok s =>
          rw [hcos] at h
          cases hrec : Store.scoreRows sqrtF q t with
          | error e => rw [hrec] at h; cases h
          | ok tail =>
              rw [hrec] at h
              injection h with h2
              rw [← h2]
              simp [ih tail hrec]

theorem topSummaries_eq_take (limit : Nat) (sorted : List (GoStr × ℚ)) :
    Store.topSummaries limit sorted = (sorted.map Prod.fst).take limit := by
  unfold Store.topSummaries
  split_ifs with h
  · rw [List.take_of_length_le (by simp), List.take_of_length_le (by simp; omega)]
  · rfl

theorem insertDesc_perm (x : GoStr × ℚ) (l : List (GoStr × ℚ)) :
    (Store.insertDesc x l).Perm (x :: l) := by
  induction l with
  | nil => exact List.Perm.refl _
  | cons y ys ih =>
      unfold Store.insertDesc
      split_ifs with h
      · exact (ih.cons y).trans (List.Perm.swap x y ys)
      · exact List.Perm.refl _

theorem insertDesc_pairwise (x : GoStr × ℚ) (l : List (GoStr × ℚ))
    (hl : l.Pairwise (fun a b => b.2 ≤ a.2)) :
    (Store.insertDesc x l).Pairwise (fun a b => b.2 ≤ a.2) := by
  induction l with
  | nil => simp [Store.insertDesc]
  | cons y ys ih =>
      rcases List.pairwise_cons.mp hl with ⟨hy, hys⟩
      unfold Store.insertDesc
      split_ifs with h
      · refine List.pairwise_cons.mpr ⟨fun z hz => ?_, ih hys⟩
        rcases List.mem_cons.mp ((insertDesc_perm x ys).mem_iff.mp hz) with rfl | hzys
        · exact le_of_lt h
        · exact hy z hzys
      · refine List.pairwise_cons.mpr ⟨fun z hz => ?_, hl⟩
        rcases List.mem_cons.mp hz with rfl | hzys
        · exact not_lt.mp h
        · exact le_trans (hy z hzys) (not_lt.mp h)

theorem stableSortDesc_perm (l : List (GoStr × ℚ)) :
    (Store.stableSortDesc l).Perm l := by
  induction l with
  | nil => exact List.Perm.refl _
  | cons x t ih =>
      exact (insertDesc_perm x (Store.stableSortDesc t)).trans (ih.cons x)

theorem stableSortDesc_pairwise (l : List (GoStr × ℚ)) :
    (Store.stableSortDesc l).Pairwise (fun a b => b.2 ≤ a.2) := by
  induction l with
  | nil => simp [Store.stableSortDesc]
  | cons x t ih => exact insertDesc_pairwise x _ ih

theorem strict_sorted_perm_eq (l₁ : List (GoStr × ℚ)) :
    ∀ l₂, l₁.Perm l₂ → l₁.Pairwise (fun a b => b.2 < a.2) →
      l₂.Pairwise (fun a b => b.2 < a.2) → l₁ = l₂ := by
  induction l₁ with
  | nil => intro l₂ hp _ _; exact hp.nil_eq
  | cons x t ih =>
      intro l₂ hp h1 h2
      cases l₂ with
      | nil => exact absurd hp.symm.nil_eq (by simp)
      | cons y u =>
          have hxy : x = y := by
            by_contra hne
            have hx2 : x ∈ y :: u := hp.mem_iff.mp (List.mem_cons_self x t)
            have hy1 : y ∈ x :: t := hp.mem_iff.mpr (List.mem_cons_self y u)
            rcases List.mem_cons.mp hx2 with h | hxu
            · exact hne h
            · rcases List.mem_cons.mp hy1 with h | hyt
              · exact hne h.symm
              · have hlt1 := (List.pairwise_cons.mp h1).1 y hyt
                have hlt2 := (List.pairwise_cons.mp h2).1 x hxu
                exact absurd (lt_trans hlt1 hlt2) (lt_irrefl _)
          subst hxy
          exact congrArg (List.cons x)
            (ih u hp.cons_inv (List.pairwise_cons.mp h1).2 (List.pairwise_cons.mp h2).2)

theorem pairwise_strict_of_nonincreasing (l : List (GoStr × ℚ))
    (hR : l.Pairwise (fun a b => b.2 ≤ a.2))
    (hne : (l.map Prod.snd).Pairwise (· ≠ ·)) :
    l.Pairwise (fun a b => b.2 < a.2) := by
  rw [List.pairwise_map] at hne
  exact (hR.and hne).imp fun h => lt_of_le_of_ne h.1 (Ne.symm h.2)

/-- C1 amended: `Search` scores every enumerated row (one similarity per
row, in enumeration order — most recent first by timestamp) and returns the
first `min(limit, count)` summaries of **some** permutation of the scored
rows in which similarities never increase; since the source sorts with
`sort.Slice`, which is not stable, the order among equal scores is
unspecified, but whenever all scores are pairwise distinct the output is
exactly the stable descending order the claim describes. -/
theorem search_spec (sqrtF : ℚ → ℚ) (query : List ℚ) (rows : List Store.SearchRow)
    (limit : Nat) (out : List GoStr)
    (h : Store.SearchOutcome sqrtF query rows limit out) :
    ∃ res, Store.scoreRows sqrtF query rows = .ok res ∧
      res.length = rows.length ∧
      out.length = min limit rows.length ∧
      ∃ sorted : List (GoStr × ℚ), sorted.Perm res ∧
        sorted.Pairwise (fun a b => b.2 ≤ a.2) ∧
        out = (sorted.map Prod.fst).take limit ∧
        ((res.map Prod.snd).Pairwise (· ≠ ·) →
          out = Store.topSummaries limit (Store.stableSortDesc res)) := by
  obtain ⟨res, sorted, hres, hpost, hout⟩ := h
  unfold Store.sortSlicePost at hpost
  obtain ⟨hperm, hpair⟩ := hpost
  have hlen : res.length = rows.length := scoreRows_ok_length sqrtF query rows res hres
  have hpair' : sorted.Pairwise (fun a b => b.2 ≤ a.2) :=
    hpair.imp fun hltn => not_lt.mp hltn
  have houttake : out = (sorted.map Prod.fst).take limit := by
    rw [hout, topSummaries_eq_take]
  refine ⟨res, hres, hlen, ?_, sorted, hperm, hpair', houttake, fun hd => ?_⟩
  · rw [houttake]
    simp [hperm.length_eq, hlen]
  · have hdsorted : (sorted.map Prod.snd).Pairwise (· ≠ ·) := by
      refine (List.Perm.pairwise_iff (fun h => Ne.symm h) (hperm.map Prod.snd)).mpr ?_
      exact hd
    have hstrict1 : sorted.Pairwise (fun a b => b.2 < a.2) :=
      pairwise_strict_of_nonincreasing sorted hpair' hdsorted
    have hstrict2 : (Store.stableSortDesc res).Pairwise (fun a b => b.2 < a.2) :=
      pairwise_strict_of_nonincreasing _ (stableSortDesc_pairwise res)
        (by
          refine (List.Perm.pairwise_iff (fun h => Ne.symm h)
            ((stableSortDesc_perm res).map Prod.snd)).mpr hd)
    have heq : sorted = Store.stableSortDesc res :=
      strict_sorted_perm_eq sorted _ (hperm.trans (stableSortDesc_perm res).symm)
        hstrict1 hstrict2
    rw [houttake, heq, topSummaries_eq_take]

theorem cos_ex_one : Vector.cosineSimilarity Store.sqrtEx [1] [1] = .ok 1 := by
  have hacc := cosine_acc_eq [(1:ℚ)] [(1:ℚ)] rfl
  simp only [Vector.cosineSimilarity, hacc]
  norm_num [Vector.dotProd, Vector.sumSq, Store.sqrtEx]

theorem cos_ex_two : Vector.cosineSimilarity Store.sqrtEx [1] [2] = .ok 1 := by
  have hacc := cosine_acc_eq [(1:ℚ)] [(2:ℚ)] rfl
  simp only [Vector.cosineSimilarity, hacc]
  norm_num [Vector.dotProd, Vector.sumSq, Store.sqrtEx]

theorem scoreRows_ex :
    Store.scoreRows Store.sqrtEx [1] [⟨[105], [97], [1]⟩, ⟨[106], [98], [2]⟩]
      = .ok [([97], 1), ([98], 1)] := by
  simp only [Store.scoreRows, cos_ex_one, cos_ex_two]

/-- C1 counterexample: two rows, most recent first, whose embeddings `[1]`
and `[2]` both score similarity 1 against the query `[1]` (the square-root
oracle agrees with the exact square root at the reached values 1 and 4).
The swapped order satisfies the `sort.Slice` postcondition, so
`["b", "a"]` (byte strings `[[98], [97]]`) is a possible `Search` output,
while the claimed stable enumeration order is `["a", "b"]`: ties are not
guaranteed to follow the row enumeration order. -/
theorem search_tie_order_not_stable :
    Store.SearchOutcome Store.sqrtEx [1] [⟨[105], [97], [1]⟩, ⟨[106], [98], [2]⟩] 2
        [[98], [97]] ∧
      Store.topSummaries 2 (Store.stableSortDesc [([97], 1), ([98], 1)]) = [[97], [98]] ∧
      ([[98], [97]] : List GoStr) ≠ [[97], [98]] := by
  refine ⟨⟨[([97], 1), ([98], 1)], [([98], 1), ([97], 1)], scoreRows_ex, ⟨?_, ?_⟩, ?_⟩,
    ?_, by decide⟩
  · exact List.Perm.swap ([97], 1) ([98], 1) []
  · refine List.pairwise_cons.mpr ⟨fun z hz => ?_, by simp⟩
    rcases List.mem_singleton.mp hz with rfl
    norm_num
  · rfl
  · norm_num [Store.stableSortDesc, Store.insertDesc, Store.topSummaries]

/-- Witness for C1 (amended) at the same two-row store, with the stable
outcome. -/
theorem search_spec_witness :
    ∃ res, Store.scoreRows Store.sqrtEx [1]
        [⟨[105], [97], [1]⟩, ⟨[106], [98], [2]⟩] = .ok res ∧ res.length = 2 := by
  have houtcome : Store.SearchOutcome Store.sqrtEx [1]
      [⟨[105], [97], [1]⟩, ⟨[106], [98], [2]⟩] 2 [[97], [98]] := by
    refine ⟨[([97], 1), ([98], 1)], [([97], 1), ([98], 1)], scoreRows_ex,
      ⟨List.Perm.refl _, ?_⟩, rfl⟩
    refine List.pairwise_cons.mpr ⟨fun z hz => ?_, by simp⟩
    rcases List.mem_singleton.mp hz with rfl
    norm_num
  obtain ⟨res, h1, h2, _⟩ := search_spec Store.sqrtEx [1]
    [⟨[105], [97], [1]⟩, ⟨[106], [98], [2]⟩] 2 [[97], [98]] houtcome
  exact ⟨res, h1, by simpa using h2⟩

end ProjectMemory
